import Mathlib

/-!
Shallow embedding of the erdtree core (src/src/fs/erdtree/tree/mod.rs):
the entry aggregator (Tree::traverse consumer loop), the recursive tree
assembler (Tree::assemble_tree) and the renderer (Display for Tree).

Paths are modelled as lists of components; the parent path is the path
minus its final component (none for an empty path).  The Branches map
(HashMap<PathBuf, Vec<Node>>) is modelled as an association list with
first-match lookup, insert-or-replace and remove, which matches HashMap
semantics on the operations the source uses.  Node is external to the
embedded file; its shape (path, depth, dir flag, optional size, optional
child list) and accessors follow the record described at the interface
boundary and used by the embedded code.
-/

namespace Erdtree

abbrev EPath := List String

/-- One filesystem entry: path, depth, dir flag, optional size in bytes,
optional list of children (attached only during assembly). -/
inductive Node : Type where
  | mk : EPath → Nat → Bool → Option Nat → Option (List Node) → Node

def Node.path : Node → EPath
  | .mk p _ _ _ _ => p

def Node.depth : Node → Nat
  | .mk _ d _ _ _ => d

def Node.is_dir : Node → Bool
  | .mk _ _ b _ _ => b

def Node.file_size : Node → Option Nat
  | .mk _ _ _ s _ => s

def Node.children : Node → Option (List Node)
  | .mk _ _ _ _ c => c

/-- Path minus its final component; none when there is no final component. -/
def Node.parent_path_buf (n : Node) : Option EPath :=
  if n.path.isEmpty then none else some n.path.dropLast

def Node.set_children : Node → List Node → Node
  | .mk p d b s _, cs => .mk p d b s (some cs)

def Node.set_file_size : Node → Nat → Node
  | .mk p d b _ c, s => .mk p d b (some s) c

/-- The attached child list, empty when no list was ever attached. -/
def Node.childrenL (n : Node) : List Node := n.children.getD []

/-- Error kinds of the build pipeline. -/
inductive Error : Type where
  | ExpectedParent
  | MissingRoot
deriving DecidableEq

/-- Ordering policy: a comparator over pairs of nodes, or none. -/
structure Order : Type where
  comparator : Option (Node → Node → Ordering)

/-- The map from a directory path to its pending (not yet attached) children. -/
abbrev Branches := List (EPath × List Node)

def lookupB : Branches → EPath → Option (List Node)
  | [], _ => none
  | (q, l) :: rest, p => if q = p then some l else lookupB rest p

def containsB (b : Branches) (p : EPath) : Bool :=
  (lookupB b p).isSome

def insertB : Branches → EPath → List Node → Branches
  | [], p, v => [(p, v)]
  | (q, l) :: rest, p, v => if q = p then (p, v) :: rest else (q, l) :: insertB rest p v

/-- get_mut followed by push: append the node to the list at the key, if present. -/
def pushB : Branches → EPath → Node → Branches
  | [], _, _ => []
  | (q, l) :: rest, p, n => if q = p then (q, l ++ [n]) :: rest else (q, l) :: pushB rest p n

/-- HashMap::remove: the value at the key, if any, and the map without it. -/
def removeB : Branches → EPath → Option (List Node) × Branches
  | [], _ => (none, [])
  | (q, l) :: rest, p =>
    if q = p then (some l, rest)
    else
      let r := removeB rest p
      (r.1, (q, l) :: r.2)

/-- The pre-registration step of the consumer loop: a directory whose path
has no entry yet gets an empty entry for its own path. -/
def preReg (b : Branches) (n : Node) : Branches :=
  if n.is_dir && !containsB b n.path then insertB b n.path [] else b

/-- One iteration of the consumer loop of Tree::traverse: classify the
received node, pre-register a directory path, stash a depth-0 directory as
root, otherwise attach the node under its parent path (or, when the parent
key is absent, insert an empty entry at the parent path). -/
def consumeStep (st : Option Node × Branches) (n : Node) :
    Except Error (Option Node × Branches) :=
  let b1 := preReg st.2 n
  if n.is_dir && n.depth = 0 then
    .ok (some n, b1)
  else
    match n.parent_path_buf with
    | none => .error .ExpectedParent
    | some parent =>
      if containsB b1 parent then .ok (st.1, pushB b1 parent n)
      else .ok (st.1, insertB b1 parent [])

/-- The consumer loop: process the received nodes in arrival order,
aborting on the first error. -/
def consumeList : List Node → Option Node × Branches → Except Error (Option Node × Branches)
  | [], st => .ok st
  | n :: rest, st =>
    match consumeStep st n with
    | .error e => .error e
    | .ok st' => consumeList rest st'

/-- The whole aggregation phase: run the consumer loop from the empty state
and demand a root at the end. -/
def consume (stream : List Node) : Except Error (Node × Branches) :=
  match consumeList stream (none, []) with
  | .error e => .error e
  | .ok (some r, b) => .ok (r, b)
  | .ok (none, _) => .error .MissingRoot

/-- Stable sort of a child list by the comparator (Vec::sort_by). -/
def sortByComparator (f : Node → Node → Ordering) (cs : List Node) : List Node :=
  cs.mergeSort (fun a b => f a b != Ordering.gt)

/-- The tail of assemble_tree once the pending children were found: attach
the assembled children, overwrite the size when the accumulated total is
positive, and sort the children when a comparator is configured.
The triple r is (assembled children, remaining branches, accumulated size). -/
def assembleFinish (n : Node) (ord : Order) (r : List Node × Branches × Nat) :
    Node × Branches :=
  let n1 := n.set_children r.1
  let n2 := if 0 < r.2.2 then n1.set_file_size r.2.2 else n1
  let n3 :=
    match ord.comparator with
    | some f => n2.set_children (sortByComparator f r.1)
    | none => n2
  (n3, r.2.1)

mutual

/-- Tree::assemble_tree with explicit fuel (the fuel only bounds the nesting
of successful map removals, which is at most the size of the map). -/
def assembleTreeF : Nat → Node → Branches → Order → Node × Branches
  | 0, n, b, _ => (n, b)
  | fuel + 1, n, b, ord =>
    match removeB b n.path with
    | (none, _) => (n, b)
    | (some cs, b') => assembleFinish n ord (assembleChildrenF fuel cs b' ord)

/-- The for_each over the attached children: recurse into directory
children, thread the branches map through, and accumulate the resolved
sizes (file_size.unwrap_or(0)) of the now-assembled children. -/
def assembleChildrenF : Nat → List Node → Branches → Order → List Node × Branches × Nat
  | _, [], b, _ => ([], b, 0)
  | fuel, c :: rest, b, ord =>
    let p := if c.is_dir then assembleTreeF fuel c b ord else (c, b)
    let q := assembleChildrenF fuel rest p.2 ord
    (p.1 :: q.1, q.2.1, p.1.file_size.getD 0 + q.2.2)

end

/-- Tree::assemble_tree: the fuel b.length + 1 is exact, because every
nested call that removes a map entry shrinks the map by one key and a call
that finds no entry returns at once. -/
def assembleTree (n : Node) (b : Branches) (ord : Order) : Node × Branches :=
  assembleTreeF (b.length + 1) n b ord

/-- The for_each over children at the top fuel. -/
def assembleChildren (cs : List Node) (b : Branches) (ord : Order) :
    List Node × Branches × Nat :=
  assembleChildrenF (b.length + 1) cs b ord

/-- Tree::traverse: aggregation followed by assembly, producing the root. -/
def traverseBuild (stream : List Node) (ord : Order) : Except Error Node :=
  match consume stream with
  | .error e => .error e
  | .ok (r, b) => .ok (assembleTree r b ord).1

/-- The sum of the direct children's resolved sizes. -/
def childSum (cs : List Node) : Nat :=
  (cs.map (fun c => c.file_size.getD 0)).sum

/-- Padding between tree branches. -/
def SEP : String := "   "

/-- The vertical box drawing character with colour codes. -/
def VT : String := "\x1b[35m│\x1b[0m  "

/-- The corner box drawing characters with colour codes. -/
def UPRT : String := "\x1b[35m└─\x1b[0m "

/-- The branch box drawing characters with colour codes. -/
def VTRT : String := "\x1b[35m├─\x1b[0m "

/-- The inner traverse of the Display implementation: each rendered line is
kept as the pair of its connector-bearing prefix string and its node. -/
def renderList (maxD : Nat) : List Node → String → List (String × Node)
  | [], _ => []
  | c :: rest, basePfx =>
    ((basePfx ++ (if rest.isEmpty then UPRT else VTRT), c) ::
      (if c.is_dir && c.depth + 1 ≤ maxD then
        renderList maxD c.childrenL
          (basePfx ++ (if c.is_dir && rest.isEmpty then SEP else VT))
      else [])) ++ renderList maxD rest basePfx
termination_by cs _ => sizeOf cs
decreasing_by
  all_goals
    (have h : sizeOf c.childrenL < sizeOf c := by
      rcases c with ⟨cp, cd, cb, cs, _ | ccs⟩
      · simp [Node.childrenL, Node.children]
      · simp [Node.childrenL, Node.children]; omega);
    simp;
    try omega

/-- The Tree facade: depth limit, ordering policy and the assembled root. -/
structure Tree : Type where
  max_depth : Option Nat
  order : Order
  root : Node

/-- usize::MAX, the depth limit used when none is configured. -/
def USIZE_MAX : Nat := 2 ^ 64 - 1

/-- Display for Tree: the root line with no connector, followed by the
recursive rendering of the root's children. -/
def renderLines (t : Tree) : List (String × Node) :=
  let maxD := t.max_depth.getD USIZE_MAX
  ("", t.root) ::
    (match t.root.children with
     | some cs => renderList maxD cs ""
     | none => [])

/-- The body of one iteration of the rendering loop for one child: its
connector-bearing line, followed by the recursive rendering of its own
children when the child is a directory within the depth limit. -/
def blockFor (maxD : Nat) (c : Node) (lastEntry : Bool) (basePfx : String) :
    List (String × Node) :=
  (basePfx ++ (if lastEntry then UPRT else VTRT), c) ::
    (if c.is_dir && c.depth + 1 ≤ maxD then
      renderList maxD c.childrenL
        (basePfx ++ (if c.is_dir && lastEntry then SEP else VT))
    else [])

/-- Stored depths are consistent: every child's depth field is one more
than its parent's, recursively. -/
inductive depthsOk : Node → Prop where
  | intro (n : Node) (hd : ∀ c ∈ n.childrenL, c.depth = n.depth + 1)
      (hrec : ∀ c ∈ n.childrenL, depthsOk c) : depthsOk n

/-- Every retained record hangs under the key that is its own parent path. -/
def keyedInv (b : Branches) : Prop :=
  ∀ p l n, lookupB b p = some l → n ∈ l → n.parent_path_buf = some p

/-- Sample entry records used as concrete inputs. -/
def rootR : Node := .mk ["r"] 0 true none none

def dirP : Node := .mk ["r", "p"] 1 true none none

def fileC : Node := .mk ["r", "p", "c"] 2 false (some 5) none

def fileA : Node := .mk ["r", "a"] 1 false (some 3) none

def orphanX : Node := .mk ["r", "x", "c"] 2 false (some 7) none

def emptyPathN : Node := .mk [] 1 false none none

def fileRootN : Node := .mk ["r"] 0 false (some 5) none

def ordNone : Order := ⟨none⟩

set_option maxRecDepth 10000

unseal assembleTreeF assembleChildrenF renderList

@[simp]
theorem Node.children_set_children (n : Node) (cs : List Node) :
    (n.set_children cs).children = some cs := by
  cases n; rfl

@[simp]
theorem Node.file_size_set_children (n : Node) (cs : List Node) :
    (n.set_children cs).file_size = n.file_size := by
  cases n; rfl

@[simp]
theorem Node.file_size_set_file_size (n : Node) (s : Nat) :
    (n.set_file_size s).file_size = some s := by
  cases n; rfl

@[simp]
theorem Node.children_set_file_size (n : Node) (s : Nat) :
    (n.set_file_size s).children = n.children := by
  cases n; rfl

theorem assembleFinish_children (n : Node) (ord : Order) (r : List Node × Branches × Nat) :
    (assembleFinish n ord r).1.children =
      some (match ord.comparator with
            | some f => sortByComparator f r.1
            | none => r.1) := by
  cases hc : ord.comparator with
  | none => simp only [assembleFinish, hc]; split <;> simp
  | some f => simp only [assembleFinish, hc]; split <;> simp

theorem assembleFinish_file_size (n : Node) (ord : Order) (r : List Node × Branches × Nat) :
    (assembleFinish n ord r).1.file_size =
      if 0 < r.2.2 then some r.2.2 else n.file_size := by
  cases hc : ord.comparator with
  | none => simp only [assembleFinish, hc]; split <;> simp
  | some f => simp only [assembleFinish, hc]; split <;> simp

theorem assembleChildrenF_total (fuel : Nat) (cs : List Node) (b : Branches) (ord : Order) :
    (assembleChildrenF fuel cs b ord).2.2 = childSum (assembleChildrenF fuel cs b ord).1 := by
  induction cs generalizing b with
  | nil => simp [assembleChildrenF, childSum]
  | cons c rest ih =>
    simp only [assembleChildrenF, childSum, List.map_cons, List.sum_cons]
    rw [ih]
    rfl

theorem childSum_sortByComparator (f : Node → Node → Ordering) (cs : List Node) :
    childSum (sortByComparator f cs) = childSum cs := by
  have hp : List.Perm (sortByComparator f cs) cs := List.mergeSort_perm _ _
  exact (hp.map (fun c => c.file_size.getD 0)).sum_eq

/-- C1: after assemble_tree runs on a node whose children were not yet
attached, if the node ends up with an attached child list, then its size is
the sum of its direct children's resolved sizes whenever that sum is
positive, and otherwise its pre-assembly size is retained unchanged. -/
theorem assemble_dir_size (n : Node) (b : Branches) (ord : Order) (cs' : List Node)
    (h0 : n.children = none)
    (h : ((assembleTree n b ord).1).children = some cs') :
    (0 < childSum cs' → ((assembleTree n b ord).1).file_size = some (childSum cs')) ∧
    (childSum cs' = 0 → ((assembleTree n b ord).1).file_size = n.file_size) := by
  rw [assembleTree] at h ⊢
  rw [show b.length + 1 = b.length + 1 from rfl] at h ⊢
  simp only [assembleTreeF] at h ⊢
  cases hr : removeB b n.path with
  | mk o b2 =>
    cases o with
    | none =>
      rw [hr] at h
      dsimp only at h
      rw [h] at h0
      exact absurd h0 (by simp)
    | some cs =>
      rw [hr] at h
      dsimp only at h
      rw [assembleFinish_children] at h
      have htot := assembleChildrenF_total (b.length) cs b2 ord
      have hsum : childSum cs' = (assembleChildrenF (b.length) cs b2 ord).2.2 := by
        cases hc : ord.comparator with
        | none =>
          rw [hc] at h
          simp at h
          rw [← h, htot]
        | some f =>
          rw [hc] at h
          simp at h
          rw [← h, childSum_sortByComparator, htot]
      rw [assembleFinish_file_size, ← hsum]
      constructor
      · intro hpos
        simp [hpos]
      · intro hz
        simp [hz]

theorem assemble_dir_size_witness :
    (rootR.children = none ∧
      ((assembleTree rootR [(["r"], [fileA])] ordNone).1).children = some [fileA]) ∧
    (0 < childSum [fileA] →
      ((assembleTree rootR [(["r"], [fileA])] ordNone).1).file_size =
        some (childSum [fileA])) ∧
    (childSum [fileA] = 0 →
      ((assembleTree rootR [(["r"], [fileA])] ordNone).1).file_size = rootR.file_size) :=
  ⟨⟨rfl, rfl⟩, assemble_dir_size rootR [(["r"], [fileA])] ordNone [fileA] rfl rfl⟩

theorem lookupB_insertB (b : Branches) (p : EPath) (v : List Node) (q : EPath) :
    lookupB (insertB b p v) q = if q = p then some v else lookupB b q := by
  induction b with
  | nil =>
    by_cases h : q = p
    · subst h; simp [insertB, lookupB]
    · simp [insertB, lookupB, h, Ne.symm h]
  | cons hd tl ih =>
    obtain ⟨k, l⟩ := hd
    by_cases hkp : k = p <;> by_cases hqk : q = k <;>
      simp_all [insertB, lookupB, eq_comm]

theorem lookupB_pushB (b : Branches) (p : EPath) (n : Node) (q : EPath) :
    lookupB (pushB b p n) q =
      if q = p then (lookupB b p).map (fun l => l ++ [n]) else lookupB b q := by
  induction b with
  | nil =>
    by_cases h : q = p
    · subst h; simp [pushB, lookupB]
    · simp [pushB, lookupB, h]
  | cons hd tl ih =>
    obtain ⟨k, l⟩ := hd
    by_cases hkp : k = p <;> by_cases hqk : q = k <;>
      simp_all [pushB, lookupB, eq_comm]

theorem parent_ne_path (n : Node) (p : EPath) (h : n.parent_path_buf = some p) :
    p ≠ n.path := by
  intro he
  rw [Node.parent_path_buf] at h
  by_cases hme : n.path.isEmpty
  · simp [hme] at h
  · simp [hme] at h
    have hlen : p.length = n.path.length - 1 := by
      rw [← h, List.length_dropLast]
    have hne : n.path ≠ [] := by
      intro hc
      rw [hc] at hme
      simp at hme
    have hpos : 0 < n.path.length := List.length_pos.mpr hne
    rw [he] at hlen
    omega

theorem assembleChildrenF_file_id (ord : Order) (fuel : Nat) (cs : List Node)
    (b : Branches) (i : Nat) (c : Node)
    (hc : cs[i]? = some c) (hf : c.is_dir = false) :
    ((assembleChildrenF fuel cs b ord).1)[i]? = some c := by
  induction cs generalizing i b with
  | nil => simp at hc
  | cons hd tl ih =>
    cases i with
    | zero =>
      simp at hc
      subst hc
      simp [assembleChildrenF, hf]
    | succ j =>
      simp at hc
      simp only [assembleChildrenF]
      have := ih (if hd.is_dir then assembleTreeF fuel hd b ord else (hd, b)).2 j hc
      simpa using this

/-- C9: a child tagged as a file is passed through assembly completely
unchanged: the for_each over children maps it to itself at its position,
and the very same record is among the assembled node's children; only
directory children are recursed into and rewritten. -/
theorem assemble_file_frame (n : Node) (b : Branches) (ord : Order)
    (cs : List Node) (b2 : Branches) (c : Node) (i : Nat)
    (hr : removeB b n.path = (some cs, b2))
    (hc : cs[i]? = some c) (hf : c.is_dir = false) :
    ((assembleChildrenF b.length cs b2 ord).1)[i]? = some c ∧
    c ∈ ((assembleTree n b ord).1).childrenL := by
  have h1 := assembleChildrenF_file_id ord b.length cs b2 i c hc hf
  refine ⟨h1, ?_⟩
  have hmem : c ∈ (assembleChildrenF b.length cs b2 ord).1 := List.getElem?_mem h1
  rw [assembleTree]
  simp only [assembleTreeF]
  rw [hr]
  dsimp only
  rw [Node.childrenL, assembleFinish_children]
  cases hcmp : ord.comparator with
  | none => simpa using hmem
  | some f => simpa [sortByComparator, List.mem_mergeSort] using hmem

theorem assemble_file_frame_witness :
    (removeB [(["r"], [fileA])] rootR.path = (some [fileA], []) ∧
      [fileA][0]? = some fileA ∧ fileA.is_dir = false) ∧
    (((assembleChildrenF (List.length [(["r"], [fileA])]) [fileA] [] ordNone).1)[0]? =
        some fileA ∧
      fileA ∈ ((assembleTree rootR [(["r"], [fileA])] ordNone).1).childrenL) := by
  refine ⟨⟨rfl, rfl, rfl⟩, ?_⟩
  exact assemble_file_frame rootR [(["r"], [fileA])] ordNone [fileA] [] fileA 0 rfl rfl rfl

/-- C10: processing a directory record whose path already has an entry in
the pending-children map leaves that entry untouched: the accumulated
children under that path are neither cleared nor replaced. -/
theorem consume_duplicate_dir_preserves (n : Node) (r? : Option Node) (b : Branches)
    (st' : Option Node × Branches)
    (hdir : n.is_dir = true) (hmem : containsB b n.path = true)
    (h : consumeStep (r?, b) n = .ok st') :
    lookupB st'.2 n.path = lookupB b n.path := by
  by_cases hd : n.depth = 0
  · have hstep : consumeStep (r?, b) n = .ok (some n, b) := by
      simp [consumeStep, preReg, hdir, hmem, hd]
    rw [hstep] at h
    injection h with h2
    subst h2
    rfl
  · cases hp : n.parent_path_buf with
    | none =>
      have hstep : consumeStep (r?, b) n = .error .ExpectedParent := by
        simp [consumeStep, preReg, hdir, hmem, hd, hp]
      rw [hstep] at h
      simp at h
    | some parent =>
      have hne : parent ≠ n.path := parent_ne_path n parent hp
      by_cases hcp : containsB b parent
      · have hstep : consumeStep (r?, b) n = .ok (r?, pushB b parent n) := by
          simp [consumeStep, preReg, hdir, hmem, hd, hp, hcp]
        rw [hstep] at h
        injection h with h2
        subst h2
        rw [lookupB_pushB, if_neg (fun hc => hne hc.symm)]
      · have hstep : consumeStep (r?, b) n = .ok (r?, insertB b parent []) := by
          simp [consumeStep, preReg, hdir, hmem, hd, hp, hcp]
        rw [hstep] at h
        injection h with h2
        subst h2
        rw [lookupB_insertB, if_neg (fun hc => hne hc.symm)]

theorem consume_duplicate_dir_preserves_witness :
    (dirP.is_dir = true ∧
      containsB [(["r"], []), (["r", "p"], [fileC])] dirP.path = true ∧
      consumeStep (some rootR, [(["r"], []), (["r", "p"], [fileC])]) dirP =
        .ok (some rootR, [(["r"], [dirP]), (["r", "p"], [fileC])])) ∧
    lookupB [(["r"], [dirP]), (["r", "p"], [fileC])] dirP.path =
      lookupB [(["r"], []), (["r", "p"], [fileC])] dirP.path := by
  refine ⟨⟨rfl, rfl, rfl⟩, ?_⟩
  exact consume_duplicate_dir_preserves dirP (some rootR)
    [(["r"], []), (["r", "p"], [fileC])]
    (some rootR, [(["r"], [dirP]), (["r", "p"], [fileC])]) rfl rfl rfl

theorem consumeStep_nonroot (n : Node) (r? : Option Node) (b : Branches) (p : EPath)
    (hd : (n.is_dir && decide (n.depth = 0)) = false)
    (hp : n.parent_path_buf = some p) :
    consumeStep (r?, b) n =
      if containsB (preReg b n) p then .ok (r?, pushB (preReg b n) p n)
      else .ok (r?, insertB (preReg b n) p []) := by
  simp only [consumeStep, hd, hp, Bool.false_eq_true, if_false]

theorem lookupB_preReg_ne (b : Branches) (n : Node) (q : EPath) (hq : q ≠ n.path) :
    lookupB (preReg b n) q = lookupB b q := by
  rw [preReg]
  split
  · rw [lookupB_insertB, if_neg hq]
  · rfl

theorem consumeStep_error_eq (st : Option Node × Branches) (n : Node) (e : Error)
    (h : consumeStep st n = .error e) :
    n.parent_path_buf = none ∧ e = .ExpectedParent := by
  rw [consumeStep] at h
  by_cases hd : (n.is_dir && decide (n.depth = 0)) = true
  · rw [if_pos hd] at h
    simp at h
  · rw [if_neg hd] at h
    cases hp : n.parent_path_buf with
    | none =>
      rw [hp] at h
      refine ⟨rfl, ?_⟩
      injection h with he
      exact he.symm
    | some parent =>
      rw [hp] at h
      dsimp only at h
      split at h <;> simp at h

theorem consumeList_all_ok (s : List Node) (st : Option Node × Branches)
    (h : ∀ n ∈ s, n.parent_path_buf ≠ none) :
    ∃ st', consumeList s st = .ok st' := by
  induction s generalizing st with
  | nil => exact ⟨st, rfl⟩
  | cons n rest ih =>
    cases hr : consumeStep st n with
    | error e =>
      exact absurd (consumeStep_error_eq st n e hr).1 (h n (List.mem_cons_self n rest))
    | ok st2 =>
      obtain ⟨st', hst'⟩ := ih st2 (fun m hm => h m (List.mem_cons_of_mem n hm))
      refine ⟨st', ?_⟩
      rw [consumeList, hr]
      exact hst'

theorem consumeStep_root_unchanged (n : Node) (r? : Option Node) (b : Branches)
    (st' : Option Node × Branches)
    (hd : (n.is_dir && decide (n.depth = 0)) = false)
    (h : consumeStep (r?, b) n = .ok st') :
    st'.1 = r? := by
  cases hp : n.parent_path_buf with
  | none =>
    rw [consumeStep, if_neg (by rw [hd]; exact Bool.false_ne_true), hp] at h
    simp at h
  | some p =>
    rw [consumeStep_nonroot n r? b p hd hp] at h
    by_cases hc : containsB (preReg b n) p = true
    · rw [if_pos hc] at h
      injection h with h2
      rw [← h2]
    · rw [if_neg hc] at h
      injection h with h2
      rw [← h2]

theorem consumeList_stays_rootless (s : List Node) (b : Branches)
    (h0 : ∀ n ∈ s, n.depth ≠ 0)
    (h1 : ∀ n ∈ s, n.parent_path_buf ≠ none) :
    ∃ b', consumeList s (none, b) = .ok (none, b') := by
  induction s generalizing b with
  | nil => exact ⟨b, rfl⟩
  | cons n rest ih =>
    have hd : (n.is_dir && decide (n.depth = 0)) = false := by
      have : n.depth ≠ 0 := h0 n (List.mem_cons_self n rest)
      simp [this]
    cases hr : consumeStep (none, b) n with
    | error e =>
      exact absurd (consumeStep_error_eq (none, b) n e hr).1
        (h1 n (List.mem_cons_self n rest))
    | ok st2 =>
      have hroot : st2.1 = none := consumeStep_root_unchanged n none b st2 hd hr
      obtain ⟨b', hb'⟩ := ih st2.2 (fun m hm => h0 m (List.mem_cons_of_mem n hm))
        (fun m hm => h1 m (List.mem_cons_of_mem n hm))
      refine ⟨b', ?_⟩
      rw [consumeList, hr]
      rw [show st2 = (none, st2.2) from by rw [← hroot]]
      exact hb'

/-- C3 counterexample: a stream with an orphan record (its parent path
["r", "x"] was never registered) aggregates successfully instead of
failing with ExpectedParent as the claim requires. -/
theorem consume_orphan_counterexample :
    consume [rootR, orphanX] = .ok (rootR, [(["r"], []), (["r", "x"], [])]) ∧
    ∀ e, consume [rootR, orphanX] ≠ .error e := by
  refine ⟨rfl, ?_⟩
  intro e h
  rw [show consume [rootR, orphanX] = .ok (rootR, [(["r"], []), (["r", "x"], [])])
    from rfl] at h
  exact absurd h (by simp)

/-- C3 amended: ExpectedParent arises only when a record's parent path
cannot be computed; when every record in the stream has a computable
parent path, aggregation never fails with ExpectedParent (an orphan whose
parent is merely unregistered is silently dropped, not an error). -/
theorem consume_no_expected_parent (s : List Node)
    (h : ∀ n ∈ s, n.parent_path_buf ≠ none) :
    consume s ≠ .error .ExpectedParent := by
  obtain ⟨st', hok⟩ := consumeList_all_ok s (none, []) h
  rw [consume, hok]
  obtain ⟨r?, b⟩ := st'
  cases r? <;> simp

theorem consume_no_expected_parent_witness :
    (∀ n ∈ [rootR, orphanX], n.parent_path_buf ≠ none) ∧
    consume [rootR, orphanX] ≠ .error .ExpectedParent := by
  have hall : ∀ n ∈ [rootR, orphanX], n.parent_path_buf ≠ none := by
    intro n hn
    rcases List.mem_cons.mp hn with h | hn2
    · subst h; decide
    · rcases List.mem_cons.mp hn2 with h | hn3
      · subst h; decide
      · exact absurd hn3 (List.not_mem_nil n)
  exact ⟨hall, consume_no_expected_parent [rootR, orphanX] hall⟩

/-- C4 counterexample: after processing a record whose parent path
["r", "p"] had no entry, the map holds an empty list under that key, not a
list holding the record, so the record was discarded. -/
theorem consume_drop_counterexample :
    consume [rootR, fileC] = .ok (rootR, [(["r"], []), (["r", "p"], [])]) ∧
    lookupB [(["r"], []), (["r", "p"], [])] ["r", "p"] ≠ some [fileC] := by
  refine ⟨rfl, ?_⟩
  rw [show lookupB [(["r"], []), (["r", "p"], [])] ["r", "p"] = some [] from rfl]
  simp [fileC]

/-- C4 amended: when a non-root record's parent path has no entry yet, the
aggregator creates a new empty entry for that parent path and the record
itself is discarded (it is not retained in the new entry); the stashed
root is unchanged. -/
theorem consume_unregistered_parent_empty (n : Node) (r? : Option Node) (b : Branches)
    (p : EPath)
    (hroot : ¬(n.is_dir = true ∧ n.depth = 0))
    (hp : n.parent_path_buf = some p)
    (hc : containsB b p = false) :
    consumeStep (r?, b) n = .ok (r?, insertB (preReg b n) p []) ∧
    lookupB (insertB (preReg b n) p []) p = some [] := by
  have hd : (n.is_dir && decide (n.depth = 0)) = false := by
    by_cases hb : n.is_dir = true
    · have hdep : n.depth ≠ 0 := fun hh => hroot ⟨hb, hh⟩
      simp [hb, hdep]
    · have hb' : n.is_dir = false := by revert hb; cases n.is_dir <;> simp
      simp [hb']
  have hne : p ≠ n.path := parent_ne_path n p hp
  have hcp : containsB (preReg b n) p = false := by
    rw [containsB, lookupB_preReg_ne b n p hne, ← containsB]
    exact hc
  rw [consumeStep_nonroot n r? b p hd hp, if_neg (by rw [hcp]; exact Bool.false_ne_true)]
  exact ⟨rfl, by rw [lookupB_insertB, if_pos rfl]⟩

theorem consume_unregistered_parent_empty_witness :
    (¬(fileC.is_dir = true ∧ fileC.depth = 0) ∧
      fileC.parent_path_buf = some ["r", "p"] ∧
      containsB [] ["r", "p"] = false) ∧
    (consumeStep (some rootR, []) fileC =
        .ok (some rootR, insertB (preReg [] fileC) ["r", "p"] []) ∧
      lookupB (insertB (preReg [] fileC) ["r", "p"] []) ["r", "p"] = some []) := by
  refine ⟨⟨by decide, rfl, rfl⟩, ?_⟩
  exact consume_unregistered_parent_empty fileC (some rootR) [] ["r", "p"]
    (by decide) rfl rfl

/-- C5 counterexample: a stream with no depth-0 record need not fail with
MissingRoot: a depth-1 record with an uncomputable parent path makes the
build fail with ExpectedParent instead. -/
theorem consume_missing_root_counterexample :
    emptyPathN.depth ≠ 0 ∧
    consume [emptyPathN] = .error .ExpectedParent ∧
    consume [emptyPathN] ≠ .error .MissingRoot := by
  refine ⟨by decide, rfl, ?_⟩
  rw [show consume [emptyPathN] = .error .ExpectedParent from rfl]
  simp

/-- C5 amended: when no record of the stream has depth 0 and every record
has a computable parent path, the build fails with MissingRoot (without
the parent-path proviso it can fail with ExpectedParent instead; either
way no tree is returned). -/
theorem consume_missing_root (s : List Node)
    (h0 : ∀ n ∈ s, n.depth ≠ 0)
    (h1 : ∀ n ∈ s, n.parent_path_buf ≠ none) :
    consume s = .error .MissingRoot := by
  obtain ⟨b', hb'⟩ := consumeList_stays_rootless s [] h0 h1
  rw [consume, hb']

theorem consume_missing_root_witness :
    ((∀ n ∈ [dirP], n.depth ≠ 0) ∧ (∀ n ∈ [dirP], n.parent_path_buf ≠ none)) ∧
    consume [dirP] = .error .MissingRoot := by
  have h0 : ∀ n ∈ [dirP], n.depth ≠ 0 := by
    intro n hn
    rw [List.mem_singleton.mp hn]
    decide
  have h1 : ∀ n ∈ [dirP], n.parent_path_buf ≠ none := by
    intro n hn
    rw [List.mem_singleton.mp hn]
    decide
  exact ⟨⟨h0, h1⟩, consume_missing_root [dirP] h0 h1⟩

/-- C6 counterexample: a depth-0 record tagged as a file is not stashed as
root: the stream holding only it ends in MissingRoot rather than yielding
that record as the root. -/
theorem consume_depth0_file_counterexample :
    fileRootN.depth = 0 ∧ fileRootN.is_dir = false ∧
    consume [fileRootN] = .error .MissingRoot := ⟨rfl, rfl, rfl⟩

/-- C6 amended: a depth-0 record is stashed as root only when it is a
directory, in which case its parent path plays no role in the result; a
depth-0 file record is not stashed as root (the stashed root is unchanged
by it) and its parent path is resolved like that of any non-root record,
failing with ExpectedParent when it cannot be computed. -/
theorem consumeStep_depth0 (n : Node) (r? : Option Node) (b : Branches)
    (h0 : n.depth = 0) :
    (n.is_dir = true → consumeStep (r?, b) n = .ok (some n, preReg b n)) ∧
    (n.is_dir = false → n.parent_path_buf = none →
      consumeStep (r?, b) n = .error .ExpectedParent) ∧
    (n.is_dir = false → ∀ st', consumeStep (r?, b) n = .ok st' → st'.1 = r?) := by
  refine ⟨?_, ?_, ?_⟩
  · intro hb
    simp [consumeStep, hb, h0]
  · intro hb hp
    simp [consumeStep, hb, hp]
  · intro hb st' h
    exact consumeStep_root_unchanged n r? b st' (by simp [hb]) h

theorem consumeStep_depth0_witness :
    (rootR.depth = 0 ∧ rootR.is_dir = true) ∧
    consumeStep (none, []) rootR = .ok (some rootR, [(["r"], [])]) := by
  refine ⟨⟨rfl, rfl⟩, ?_⟩
  exact (consumeStep_depth0 rootR none [] rfl).1 rfl

/-- C2 counterexample: two arrival orders of the same record set yield
different aggregation results: when the child arrives before its parent
directory record, it is dropped, so the pending list under ["r", "p"]
differs between the two orders. -/
theorem consume_order_counterexample :
    List.Perm [rootR, dirP, fileC] [rootR, fileC, dirP] ∧
    consume [rootR, dirP, fileC] =
      .ok (rootR, [(["r"], [dirP]), (["r", "p"], [fileC])]) ∧
    consume [rootR, fileC, dirP] =
      .ok (rootR, [(["r"], [dirP]), (["r", "p"], [])]) ∧
    lookupB [(["r"], [dirP]), (["r", "p"], [fileC])] ["r", "p"] ≠
      lookupB [(["r"], [dirP]), (["r", "p"], [])] ["r", "p"] := by
  refine ⟨List.Perm.cons rootR (List.Perm.swap fileC dirP []), rfl, rfl, ?_⟩
  rw [show lookupB [(["r"], [dirP]), (["r", "p"], [fileC])] ["r", "p"] = some [fileC]
      from rfl,
    show lookupB [(["r"], [dirP]), (["r", "p"], [])] ["r", "p"] = some [] from rfl]
  simp

theorem keyedInv_nil : keyedInv [] := by
  intro p l n h
  simp [lookupB] at h

theorem keyedInv_insertB_nil (b : Branches) (p : EPath) (h : keyedInv b) :
    keyedInv (insertB b p []) := by
  intro q l n hl hn
  rw [lookupB_insertB] at hl
  by_cases hqp : q = p
  · rw [if_pos hqp] at hl
    injection hl with he
    rw [← he] at hn
    exact absurd hn (List.not_mem_nil n)
  · rw [if_neg hqp] at hl
    exact h q l n hl hn

theorem keyedInv_pushB (b : Branches) (p : EPath) (m : Node) (h : keyedInv b)
    (hm : m.parent_path_buf = some p) : keyedInv (pushB b p m) := by
  intro q l n hl hn
  rw [lookupB_pushB] at hl
  by_cases hqp : q = p
  · rw [if_pos hqp] at hl
    cases hb : lookupB b p with
    | none => rw [hb] at hl; simp at hl
    | some l0 =>
      rw [hb] at hl
      simp at hl
      rw [← hl] at hn
      rcases List.mem_append.mp hn with hn0 | hn1
      · rw [hqp]
        exact h p l0 n hb hn0
      · rw [List.mem_singleton.mp hn1, hqp]
        exact hm
  · rw [if_neg hqp] at hl
    exact h q l n hl hn

theorem keyedInv_preReg (b : Branches) (n : Node) (h : keyedInv b) :
    keyedInv (preReg b n) := by
  rw [preReg]
  split
  · exact keyedInv_insertB_nil b n.path h
  · exact h

theorem consumeStep_keyedInv (st : Option Node × Branches) (n : Node)
    (st' : Option Node × Branches)
    (hinv : keyedInv st.2) (h : consumeStep st n = .ok st') :
    keyedInv st'.2 := by
  obtain ⟨r?, b⟩ := st
  by_cases hd : (n.is_dir && decide (n.depth = 0)) = true
  · rw [consumeStep, if_pos hd] at h
    injection h with h2
    rw [← h2]
    exact keyedInv_preReg b n hinv
  · have hd' : (n.is_dir && decide (n.depth = 0)) = false := by
      revert hd; cases hx : (n.is_dir && decide (n.depth = 0)) <;> simp
    cases hp : n.parent_path_buf with
    | none =>
      rw [consumeStep, if_neg hd, hp] at h
      simp at h
    | some p =>
      rw [consumeStep_nonroot n r? b p hd' hp] at h
      by_cases hc : containsB (preReg b n) p = true
      · rw [if_pos hc] at h
        injection h with h2
        rw [← h2]
        exact keyedInv_pushB (preReg b n) p n (keyedInv_preReg b n hinv) hp
      · rw [if_neg hc] at h
        injection h with h2
        rw [← h2]
        exact keyedInv_insertB_nil (preReg b n) p (keyedInv_preReg b n hinv)

theorem consumeList_keyedInv (s : List Node) (st st' : Option Node × Branches)
    (hinv : keyedInv st.2) (h : consumeList s st = .ok st') :
    keyedInv st'.2 := by
  induction s generalizing st with
  | nil =>
    rw [consumeList] at h
    injection h with h2
    rw [← h2]
    exact hinv
  | cons n rest ih =>
    cases hr : consumeStep st n with
    | error e =>
      rw [consumeList, hr] at h
      simp at h
    | ok st2 =>
      rw [consumeList, hr] at h
      exact ih st2 (consumeStep_keyedInv st n st2 hinv hr) h

/-- C2 amended: aggregation is keyed by path, not by arrival sequence:
every record retained in the final map hangs under exactly its own parent
path. The full claim fails: the output does depend on receive order, since
a record arriving before its parent path is registered is dropped, and the
per-parent list order follows arrival order. -/
theorem consume_keyed_by_path (s : List Node) (r : Node) (b : Branches)
    (h : consume s = .ok (r, b)) :
    ∀ p l n, lookupB b p = some l → n ∈ l → n.parent_path_buf = some p := by
  intro p l n hl hn
  rw [consume] at h
  cases hcl : consumeList s (none, []) with
  | error e =>
    rw [hcl] at h
    simp at h
  | ok st' =>
    rw [hcl] at h
    obtain ⟨r0?, b0⟩ := st'
    cases r0? with
    | none => simp at h
    | some r0 =>
      dsimp only at h
      injection h with h2
      have hb : b0 = b := congrArg Prod.snd h2
      have hinv := consumeList_keyedInv s (none, []) (some r0, b0) keyedInv_nil hcl
      rw [hb] at hinv
      exact hinv p l n hl hn

theorem consume_keyed_by_path_witness :
    consume [rootR, dirP, fileC] =
      .ok (rootR, [(["r"], [dirP]), (["r", "p"], [fileC])]) ∧
    lookupB [(["r"], [dirP]), (["r", "p"], [fileC])] ["r", "p"] = some [fileC] ∧
    fileC ∈ [fileC] ∧
    fileC.parent_path_buf = some ["r", "p"] := by
  refine ⟨rfl, rfl, List.mem_singleton.mpr rfl, ?_⟩
  exact consume_keyed_by_path [rootR, dirP, fileC] rootR
    [(["r"], [dirP]), (["r", "p"], [fileC])] rfl ["r", "p"] [fileC] fileC rfl
    (List.mem_singleton.mpr rfl)

/-- C8: in any sibling group, every child before the last is rendered with
the branch connector VTRT and the last child with the corner connector
UPRT: the rendering of the group cs1 ++ c :: cs2 consists of the blocks of
the cs1 children (all marked non-last, hence VTRT), then the line for c
whose connector is UPRT exactly when nothing follows it, then the blocks
of the remaining children. -/
theorem render_connectors (maxD : Nat) (basePfx : String) (cs1 : List Node) (c : Node)
    (cs2 : List Node) :
    renderList maxD (cs1 ++ c :: cs2) basePfx =
      (cs1.map (fun c' => blockFor maxD c' false basePfx)).flatten ++
        ((basePfx ++ (if cs2.isEmpty then UPRT else VTRT), c) ::
          ((if c.is_dir && c.depth + 1 ≤ maxD then
              renderList maxD c.childrenL
                (basePfx ++ (if c.is_dir && cs2.isEmpty then SEP else VT))
            else []) ++ renderList maxD cs2 basePfx)) := by
  induction cs1 with
  | nil =>
    simp only [List.nil_append, List.map_nil, List.flatten_nil]
    simp only [renderList]
    simp
  | cons a cs1 ih =>
    have hne : (cs1 ++ c :: cs2).isEmpty = false := by cases cs1 <;> simp
    rw [List.cons_append]
    simp only [renderList, hne]
    rw [ih]
    simp [blockFor, List.append_assoc]

theorem Node.sizeOf_childrenL_lt (n : Node) : sizeOf n.childrenL < sizeOf n := by
  rcases n with ⟨p, d, b, s, _ | cs⟩
  · simp [Node.childrenL, Node.children]
  · simp [Node.childrenL, Node.children]; omega

theorem depthsOk_child (n : Node) (h : depthsOk n) (c : Node) (hc : c ∈ n.childrenL) :
    c.depth = n.depth + 1 ∧ depthsOk c := by
  cases h with
  | intro _ hd hrec => exact ⟨hd c hc, hrec c hc⟩

theorem renderList_depth_le (D : Nat) :
    ∀ N cs basePfx, sizeOf (cs : List Node) ≤ N →
      (∀ c ∈ cs, c.depth ≤ D ∧ depthsOk c) →
      ∀ pr ∈ renderList D cs basePfx, pr.2.depth ≤ D := by
  intro N
  induction N with
  | zero =>
    intro cs basePfx hsz
    cases cs with
    | nil => intro _ pr hpr; simp [renderList] at hpr
    | cons c rest => simp at hsz
  | succ M ih =>
    intro cs basePfx hsz hall pr hpr
    cases cs with
    | nil => simp [renderList] at hpr
    | cons c rest =>
      simp only [renderList] at hpr
      have hszc : sizeOf c.childrenL ≤ M := by
        have h1 := Node.sizeOf_childrenL_lt c
        simp at hsz
        omega
      have hszr : sizeOf rest ≤ M := by
        simp at hsz
        omega
      rcases List.mem_cons.mp hpr with he | hm
      · rw [he]
        exact (hall c (List.mem_cons_self c rest)).1
      · rcases List.mem_append.mp hm with hin | hrest
        · by_cases hg : (c.is_dir && decide (c.depth + 1 ≤ D)) = true
          · rw [if_pos hg] at hin
            have hcok : depthsOk c := (hall c (List.mem_cons_self c rest)).2
            have hdep : c.depth + 1 ≤ D := by
              have := Bool.and_elim_right hg
              exact of_decide_eq_true this
            refine ih c.childrenL _ hszc ?_ pr hin
            intro c' hc'
            obtain ⟨hd', hok'⟩ := depthsOk_child c hcok c' hc'
            constructor
            · rw [hd']; exact hdep
            · exact hok'
          · rw [if_neg hg] at hin
            exact absurd hin (List.not_mem_nil pr)
        · exact ih rest basePfx hszr
            (fun m hm2 => hall m (List.mem_cons_of_mem c hm2)) pr hrest

/-- C7 counterexample: with a configured depth limit of 0, the root's
immediate children are still rendered, so a line for a depth-1 node
appears even though 1 exceeds the limit. -/
theorem render_depth_counterexample :
    (Tree.mk (some 0) ordNone (Node.mk ["r"] 0 true none (some [fileA]))).max_depth =
      some 0 ∧
    ¬(∀ pr ∈ renderLines
          (Tree.mk (some 0) ordNone (Node.mk ["r"] 0 true none (some [fileA]))),
        pr.2.depth ≤ 0) := by
  refine ⟨rfl, ?_⟩
  intro hall
  have hm : ((UPRT, fileA) : String × Node) ∈
      renderLines (Tree.mk (some 0) ordNone (Node.mk ["r"] 0 true none (some [fileA]))) := by
    rw [show renderLines
          (Tree.mk (some 0) ordNone (Node.mk ["r"] 0 true none (some [fileA]))) =
        [("", Node.mk ["r"] 0 true none (some [fileA])), (UPRT, fileA)] from rfl]
    exact List.mem_cons_of_mem _ (List.mem_singleton.mpr rfl)
  exact absurd (hall (UPRT, fileA) hm) (by decide)

/-- C7 amended: for a configured depth limit D of at least 1 and an
assembled tree with consistent stored depths (root at 0, each child one
deeper), no rendered line corresponds to a node whose depth exceeds D;
recursion into a child's children still happens only when the child is a
directory and its depth + 1 does not exceed D, but the root's immediate
children are rendered regardless, which is why D = 0 is excluded. -/
theorem render_depth_bounded (t : Tree) (D : Nat)
    (hmax : t.max_depth = some D) (hD : 1 ≤ D)
    (h0 : t.root.depth = 0) (hok : depthsOk t.root) :
    ∀ pr ∈ renderLines t, pr.2.depth ≤ D := by
  intro pr hpr
  rw [renderLines, hmax] at hpr
  simp only [Option.getD_some] at hpr
  rcases List.mem_cons.mp hpr with he | hm
  · rw [he]
    simp only [h0]
    exact Nat.zero_le D
  · cases hrc : t.root.children with
    | none =>
      rw [hrc] at hm
      exact absurd hm (List.not_mem_nil pr)
    | some cs =>
      rw [hrc] at hm
      refine renderList_depth_le D (sizeOf cs) cs "" (le_refl _) ?_ pr hm
      intro c hc
      have hcc : c ∈ t.root.childrenL := by
        rw [Node.childrenL, hrc]
        simpa using hc
      obtain ⟨hd1, hok1⟩ := depthsOk_child t.root hok c hcc
      constructor
      · rw [hd1, h0]
        exact hD
      · exact hok1

theorem render_depth_bounded_witness :
    ((Tree.mk (some 1) ordNone (Node.mk ["r"] 0 true none (some [fileA]))).max_depth =
        some 1 ∧
      (1 : Nat) ≤ 1 ∧
      (Node.mk ["r"] 0 true none (some [fileA])).depth = 0 ∧
      depthsOk (Node.mk ["r"] 0 true none (some [fileA]))) ∧
    ∀ pr ∈ renderLines
        (Tree.mk (some 1) ordNone (Node.mk ["r"] 0 true none (some [fileA]))),
      pr.2.depth ≤ 1 := by
  have hok : depthsOk (Node.mk ["r"] 0 true none (some [fileA])) := by
    refine depthsOk.intro _ ?_ ?_
    · intro c hc
      rw [show (Node.mk ["r"] 0 true none (some [fileA])).childrenL = [fileA] from rfl]
        at hc
      rw [List.mem_singleton.mp hc]
      rfl
    · intro c hc
      rw [show (Node.mk ["r"] 0 true none (some [fileA])).childrenL = [fileA] from rfl]
        at hc
      rw [List.mem_singleton.mp hc]
      refine depthsOk.intro _ ?_ ?_ <;> intro c' hc' <;>
        rw [show fileA.childrenL = [] from rfl] at hc' <;>
        exact absurd hc' (List.not_mem_nil c')
  exact ⟨⟨rfl, le_refl 1, rfl, hok⟩,
    render_depth_bounded (Tree.mk (some 1) ordNone
      (Node.mk ["r"] 0 true none (some [fileA]))) 1 rfl (le_refl 1) rfl hok⟩

end Erdtree
